import Mathlib

/-!
Verification of the incremental synchronization pipeline of VectorCode
(src/vectorcode/subcommands/vectorise.py and src/vectorcode/common.py).

The embedding models the remote chroma collection as a list of document
records, each holding an id (fresh ids are modelled by a counter threaded
through the state, standing for the globally unique uuid4 tokens minted at
insert time), the document text, and the value stored under the "path"
metadata key (which the cleanup code guards with an isinstance check, so it
is modelled as either a string or an unspecified non-string value).

File paths are taken to be already canonical strings: expand_path from
cli_utils (not under src) canonicalizes every path before use, so the model
works directly with the canonical form.
-/

namespace VectorCode

/-- Value stored under the "path" metadata key of a document record.
The orphan-cleanup loop checks isinstance(path, str), so the model keeps
only the distinction between a string value and any non-string value. -/
inductive MVal where
  | str (s : String)
  | nonString
  deriving DecidableEq

/-- One remote document record: id (an abstract unique token), document text,
and the "path" metadata value. -/
structure DocRecord where
  id : Nat
  text : String
  meta : MVal
  deriving DecidableEq

/-- The remote collection, as the sequence of its records. -/
abbrev Collection := List DocRecord

/-- The shared stats dictionary of vectorise: {"add": 0, "update": 0, "removed": 0}. -/
structure Stats where
  add : Nat
  update : Nat
  removed : Nat
  deriving DecidableEq

/-- State threaded through a sync pass: the remote collection, the shared
stats counters, and the supply of fresh record ids (modelling uuid4). -/
structure SyncState where
  coll : Collection
  stats : Stats
  nextId : Nat
  deriving DecidableEq

/-- Environment of external collaborators of chunked_add and vectorise.

Modelled from the spec: chunkFn stands for FileChunker(chunk_size,
overlap_ratio).chunk from vectorcode.chunking (a module of this repository
that is not under src; per spec section 4.2 it is a deterministic function
of the file content), content stands for reading a file from disk, onDisk
stands for os.path.isfile, and relTok stands for
os.path.relpath(full_path, project_root). -/
structure Env where
  chunkFn : String → List String
  content : String → String
  onDisk : String → Bool
  relTok : String → String

/-- Records of the collection whose "path" metadata equals p: the result of
collection.get(where={"path": p}). -/
def filterPath (c : Collection) (p : String) : List DocRecord :=
  c.filter fun r => r.meta == MVal.str p

/-- Effect of collection.delete(where={"path": p}). -/
def deletePath (c : Collection) (p : String) : Collection :=
  c.filter fun r => !(r.meta == MVal.str p)

/-- Documents stored at a given "path" metadata value, in collection order.
This is the id-free observable content of the collection at one key. -/
def docsAt (c : Collection) (v : MVal) : List String :=
  (c.filter fun r => r.meta == v).map DocRecord.text

/-- Records minted for one insert: consecutive fresh ids starting at start,
each record carrying the canonical path as its metadata
(metadatas=[{"path": full_path_str} for _ in inserted_chunks]). -/
def newRecords (start : Nat) (p : String) : List String → List DocRecord
  | [] => []
  | t :: ts => ⟨start, t, MVal.str p⟩ :: newRecords (start + 1) p ts

/-- Structural worker for the batch slicing loop. The fuel argument is the
length of the initial list: with a positive step, each iteration drops at
least one element, so the fuel never runs out before the list does. -/
def batchesAux (m : Nat) : Nat → List String → List (List String)
  | _, [] => []
  | 0, _ :: _ => []
  | fuel + 1, xs => xs.take m :: batchesAux m fuel (xs.drop m)

/-- The slicing loop of chunked_add:
for idx in range(0, len(chunks), max_batch_size): chunks[idx : idx + max_batch_size].
A step of 0 raises in python; the model returns no batches in that case and
all claims about batching assume a positive max batch size. -/
def batches (m : Nat) (xs : List String) : List (List String) :=
  if m = 0 then [] else batchesAux m xs.length xs

/-- Effect of one collection.add call on the state: append freshly minted
records for the given documents and advance the id supply. -/
def insertBatch (p : String) (docs : List String) (st : SyncState) : SyncState :=
  { st with
    coll := st.coll ++ newRecords st.nextId p docs
    nextId := st.nextId + docs.length }

/-- The insert loop of chunked_add over the prepared batches. -/
def insertBatches (p : String) (bs : List (List String)) (st : SyncState) : SyncState :=
  bs.foldl (fun s b => insertBatch p b s) st

/-- Chunks prepared for a file by chunked_add: the chunker output on the
file content followed by the appended relative-path token. -/
def chunksOf (env : Env) (p : String) : List String :=
  env.chunkFn (env.content p) ++ [env.relTok p]

/-- One per-file task (chunked_add) with every remote call succeeding:
query the existing records at the canonical path; if any exist delete them
and increment update, otherwise increment add; then chunk the file, append
the relative-path token and insert the batch in slices of at most
max_batch_size documents. -/
def chunkedAddPure (env : Env) (m : Nat) (p : String) (st : SyncState) : SyncState :=
  let numExisting := (filterPath st.coll p).length
  let st1 :=
    if numExisting ≠ 0 then
      { st with
        coll := deletePath st.coll p
        stats := { st.stats with update := st.stats.update + 1 } }
    else
      { st with stats := { st.stats with add := st.stats.add + 1 } }
  insertBatches p (batches m (chunksOf env p)) st1

/-- Insert loop in which the remote call for each batch may fail. ok k tells
whether the k-th remote call of the task succeeds; a failing call leaves the
state exactly as it was before that call and aborts the task with that state. -/
def insertBatchesE (p : String) (ok : Nat → Bool) :
    Nat → List (List String) → SyncState → Except SyncState SyncState
  | _, [], st => Except.ok st
  | k, b :: bs, st =>
      if ok k then insertBatchesE p ok (k + 1) bs (insertBatch p b st)
      else Except.error st

/-- chunked_add with a failure oracle over its remote calls, numbered in
program order: call 0 is the existing-ids query, call 1 is the delete (only
present when existing records were found), and the remaining calls are the
per-batch inserts. A failing call raises out of the task; the error value is
the shared state at that moment. Counter increments are local mutations
under the stats lock and cannot fail. -/
def chunkedAddE (env : Env) (m : Nat) (ok : Nat → Bool) (p : String) (st : SyncState) :
    Except SyncState SyncState :=
  if ok 0 then
    let numExisting := (filterPath st.coll p).length
    if numExisting ≠ 0 then
      if ok 1 then
        let st1 :=
          { st with
            coll := deletePath st.coll p
            stats := { st.stats with update := st.stats.update + 1 } }
        insertBatchesE p ok 2 (batches m (chunksOf env p)) st1
      else Except.error st
    else
      let st1 := { st with stats := { st.stats with add := st.stats.add + 1 } }
      insertBatchesE p ok 1 (batches m (chunksOf env p)) st1
  else Except.error st

/-- Orphan selector applied to one record during cleanup: the record
contributes its path when the path value is a string and no file exists at
it (if isinstance(path, str) and not os.path.isfile(path)). -/
def orphFn (onDisk : String → Bool) (r : DocRecord) : Option String :=
  match r.meta with
  | MVal.str s => if onDisk s then none else some s
  | MVal.nonString => none

/-- The set of orphan paths built by the cleanup loop, as a duplicate-free
list (the python code accumulates into a set). -/
def orphans (onDisk : String → Bool) (c : Collection) : List String :=
  (c.filterMap (orphFn onDisk)).dedup

/-- String selector for a stored path reference, regardless of disk state. -/
def pathFn (r : DocRecord) : Option String :=
  match r.meta with
  | MVal.str s => some s
  | MVal.nonString => none

/-- Distinct string-valued paths stored in the collection. -/
def storedPaths (c : Collection) : List String :=
  (c.filterMap pathFn).dedup

/-- Record keeper for the bulk orphan delete: a record survives
delete(where={"path": {"$in": orphanes}}) exactly when its path metadata is
on disk or is not a string. -/
def keepFn (onDisk : String → Bool) (r : DocRecord) : Bool :=
  match r.meta with
  | MVal.str s => onDisk s
  | MVal.nonString => true

/-- The orphan-cleanup block at the end of vectorise. Returns the new state
together with the list of bulk delete calls issued (each call carries the
path list of its where-filter). The whole block is skipped when the
collection returns no metadata, and the delete is issued only when the
orphan set is non-empty. -/
def cleanup (onDisk : String → Bool) (st : SyncState) : SyncState × List (List String) :=
  if st.coll.isEmpty then (st, [])
  else
    let os := orphans onDisk st.coll
    let st1 := { st with stats := { st.stats with removed := os.length } }
    if os.isEmpty then (st1, [])
    else
      ({ st1 with
          coll := st1.coll.filter fun r =>
            !(match r.meta with
              | MVal.str s => decide (s ∈ os)
              | MVal.nonString => false) },
        [os])

/-- Sequential composition of the per-file tasks over the file list. Every
mutating remote call runs under the single collection lock and every counter
update under the stats lock, so any interleaving of the tasks produces the
per-path and counter effects of some sequential order; the model runs them
in list order. -/
def runTasks (env : Env) (m : Nat) (files : List String) (st : SyncState) : SyncState :=
  files.foldl (fun s f => chunkedAddPure env m f s) st

/-- One full sync pass over an already-filtered file list, starting from a
given remote collection and id supply with the stats freshly zeroed, ending
with orphan cleanup (the state component of the vectorise body). -/
def syncPass (env : Env) (m : Nat) (files : List String) (c : Collection) (n : Nat) :
    SyncState :=
  (cleanup env.onDisk (runTasks env m files ⟨c, ⟨0, 0, 0⟩, n⟩)).1

/-- The gitignore filtering step of vectorise: when a .gitignore exists at
the project root its rules are parsed and a candidate is kept when the
force flag is set or the matcher rejects it; otherwise the candidate list is
used as produced by discovery. -/
def filterByGitignore (ignoreExists force : Bool) (matchFile : String → Bool)
    (files : List String) : List String :=
  if ignoreExists then files.filter (fun f => force || !(matchFile f)) else files

/-- Embedding-function configuration carried by Config: the configured
embedding_function name and embedding_params dictionary (modelled as an
association list; the empty list is the empty dict, which python treats as
falsy). -/
structure EFConfig where
  embedding_function : String
  embedding_params : List (String × String)
  deriving DecidableEq

/-- Result of verify_ef: whether it returned True, and whether it emitted
the differing-parameters warning. -/
structure VerifyResult where
  ok : Bool
  warned : Bool
  deriving DecidableEq

/-- verify_ef from common.py. cef and cep are the values stored in the
collection metadata under embedding_function and embedding_params (none
when the key is absent). Python truthiness: an absent or empty string and
an absent or empty dict are falsy. -/
def verify_ef (cef : Option String) (cep : Option (List (String × String)))
    (cfg : EFConfig) : VerifyResult :=
  if (match cef with | none => false | some s => !(s == "")) &&
      !(cef == some cfg.embedding_function) then
    ⟨false, false⟩
  else if (match cep with | none => false | some l => !l.isEmpty) &&
      !(cep == some cfg.embedding_params) then
    ⟨true, true⟩
  else ⟨true, false⟩

/-- Output events of the vectorise run: the abort message printed on
cancellation, and the stats record rendered either as JSON (pipe mode) or
as the Added/Updated/Removed table. -/
inductive OutEvent where
  | abortMsg
  | statsJson (add update removed : Nat)
  | statsTable (add update removed : Nat)
  deriving DecidableEq

/-- show_stats: json dump in pipe mode, tabulate output otherwise. -/
def show_stats (pipe : Bool) (s : Stats) : List OutEvent :=
  if pipe then [OutEvent.statsJson s.add s.update s.removed]
  else [OutEvent.statsTable s.add s.update s.removed]

/-- Result of one vectorise invocation: exit status, emitted output events,
and the final shared state. -/
structure RunResult where
  exit : Nat
  out : List OutEvent
  state : SyncState
  deriving DecidableEq

/-- The vectorise coroutine after collection acquisition: verify the
embedding function (returning 1 before any per-file work on mismatch),
filter the discovered candidates through the gitignore rules, run one task
per file, and either abort with exit 1 on a cancellation signal (cancelAt =
some k means the signal arrived after k tasks had completed; no cleanup
runs and no stats are shown) or run orphan cleanup and emit the stats. -/
def vectoriseRun (env : Env) (cef : Option String)
    (cep : Option (List (String × String))) (cfg : EFConfig)
    (ignoreExists force : Bool) (matchFile : String → Bool) (pipe : Bool)
    (m : Nat) (rawFiles : List String) (cancelAt : Option Nat)
    (c : Collection) (n : Nat) : RunResult :=
  if !(verify_ef cef cep cfg).ok then
    { exit := 1, out := [], state := ⟨c, ⟨0, 0, 0⟩, n⟩ }
  else
    let files := filterByGitignore ignoreExists force matchFile rawFiles
    match cancelAt with
    | some k =>
        { exit := 1, out := [OutEvent.abortMsg]
          state := runTasks env m (files.take k) ⟨c, ⟨0, 0, 0⟩, n⟩ }
    | none =>
        let st2 := (cleanup env.onDisk (runTasks env m files ⟨c, ⟨0, 0, 0⟩, n⟩)).1
        { exit := 0, out := show_stats pipe st2.stats, state := st2 }

/-! Basic lemmas about the batch slicing loop. -/

theorem batchesAux_join (m : Nat) (hm : 1 ≤ m) :
    ∀ (fuel : Nat) (xs : List String), xs.length ≤ fuel →
      (batchesAux m fuel xs).flatten = xs := by
  intro fuel
  induction fuel with
  | zero =>
      intro xs hxs
      have hx : xs = [] := List.eq_nil_of_length_eq_zero (Nat.le_zero.mp hxs)
      subst hx
      simp [batchesAux]
  | succ fuel ih =>
      intro xs hxs
      cases xs with
      | nil => simp [batchesAux]
      | cons x t =>
          have hrec : ((x :: t).drop m).length ≤ fuel := by
            simp only [List.length_drop, List.length_cons] at *
            omega
          simp only [batchesAux, List.flatten_cons, ih _ hrec]
          exact List.take_append_drop m (x :: t)

/-- With a positive max batch size, concatenating the insert batches in
order gives back exactly the prepared chunk list. -/
theorem batches_join (m : Nat) (hm : 1 ≤ m) (xs : List String) :
    (batches m xs).flatten = xs := by
  have hm0 : m ≠ 0 := by omega
  simp only [batches, if_neg hm0]
  exact batchesAux_join m hm xs.length xs le_rfl

theorem batchesAux_mem_length (m : Nat) :
    ∀ (fuel : Nat) (xs : List String), ∀ b ∈ batchesAux m fuel xs, b.length ≤ m := by
  intro fuel
  induction fuel with
  | zero =>
      intro xs b hb
      cases xs <;> simp [batchesAux] at hb
  | succ fuel ih =>
      intro xs b hb
      cases xs with
      | nil => simp [batchesAux] at hb
      | cons x t =>
          simp only [batchesAux, List.mem_cons] at hb
          rcases hb with hb | hb
          · subst hb
            simp only [List.length_take]
            exact Nat.min_le_left _ _
          · exact ih _ b hb

/-- No single insert batch holds more than the max batch size documents. -/
theorem batches_mem_length (m : Nat) (xs : List String) :
    ∀ b ∈ batches m xs, b.length ≤ m := by
  intro b hb
  by_cases hm0 : m = 0
  · simp [batches, hm0] at hb
  · simp only [batches, if_neg hm0] at hb
    exact batchesAux_mem_length m xs.length xs b hb

/-! Basic lemmas about freshly minted records. -/

theorem newRecords_map_text (p : String) :
    ∀ (docs : List String) (start : Nat),
      (newRecords start p docs).map DocRecord.text = docs := by
  intro docs
  induction docs with
  | nil => intro start; simp [newRecords]
  | cons t ts ih => intro start; simp [newRecords, ih]

theorem newRecords_meta (p : String) :
    ∀ (docs : List String) (start : Nat), ∀ r ∈ newRecords start p docs,
      r.meta = MVal.str p := by
  intro docs
  induction docs with
  | nil => intro start r hr; simp [newRecords] at hr
  | cons t ts ih =>
      intro start r hr
      simp only [newRecords, List.mem_cons] at hr
      rcases hr with hr | hr
      · subst hr; rfl
      · exact ih _ r hr

theorem newRecords_id_ge (p : String) :
    ∀ (docs : List String) (start : Nat), ∀ r ∈ newRecords start p docs,
      start ≤ r.id := by
  intro docs
  induction docs with
  | nil => intro start r hr; simp [newRecords] at hr
  | cons t ts ih =>
      intro start r hr
      simp only [newRecords, List.mem_cons] at hr
      rcases hr with hr | hr
      · subst hr; exact le_rfl
      · exact Nat.le_of_succ_le (ih _ r hr)

theorem newRecords_length (p : String) :
    ∀ (docs : List String) (start : Nat),
      (newRecords start p docs).length = docs.length := by
  intro docs
  induction docs with
  | nil => intro start; simp [newRecords]
  | cons t ts ih => intro start; simp [newRecords, ih]

theorem newRecords_append (p : String) :
    ∀ (a b : List String) (start : Nat),
      newRecords start p (a ++ b) =
        newRecords start p a ++ newRecords (start + a.length) p b := by
  intro a
  induction a with
  | nil => intro b start; simp [newRecords]
  | cons t ts ih =>
      intro b start
      have harith : start + 1 + ts.length = start + (ts.length + 1) := by omega
      simp [newRecords, ih, List.length_cons, harith]

/-! The combined effect of the insert loop on the state. -/

theorem insertBatches_eq (p : String) :
    ∀ (bs : List (List String)) (st : SyncState),
      insertBatches p bs st =
        ⟨st.coll ++ newRecords st.nextId p bs.flatten, st.stats,
          st.nextId + bs.flatten.length⟩ := by
  intro bs
  induction bs with
  | nil =>
      intro st
      simp [insertBatches, newRecords]
  | cons b bs ih =>
      intro st
      have hstep : insertBatches p (b :: bs) st = insertBatches p bs (insertBatch p b st) := rfl
      rw [hstep, ih]
      simp [insertBatch, newRecords_append, List.append_assoc, List.length_append,
        Nat.add_assoc]

/-- Master equation for a per-file task in which every remote call succeeds
(positive max batch size): the task classifies the file by the presence of
records at its path, deletes the old records in the update case, and appends
the freshly minted records for all chunks, advancing the id supply. -/
theorem chunkedAddPure_eq (env : Env) (m : Nat) (p : String) (st : SyncState)
    (hm : 1 ≤ m) :
    chunkedAddPure env m p st =
      if (filterPath st.coll p).length ≠ 0 then
        ⟨deletePath st.coll p ++ newRecords st.nextId p (chunksOf env p),
          { st.stats with update := st.stats.update + 1 },
          st.nextId + (chunksOf env p).length⟩
      else
        ⟨st.coll ++ newRecords st.nextId p (chunksOf env p),
          { st.stats with add := st.stats.add + 1 },
          st.nextId + (chunksOf env p).length⟩ := by
  by_cases hc : (filterPath st.coll p).length ≠ 0
  · simp only [chunkedAddPure, if_pos hc, if_pos hc]
    rw [insertBatches_eq, batches_join m hm]
  · simp only [chunkedAddPure, if_neg hc, if_neg hc]
    rw [insertBatches_eq, batches_join m hm]

/-! Lemmas about the records stored at one metadata value. -/

/-- Records of the collection whose "path" metadata equals the value v. -/
def filterAt (c : Collection) (v : MVal) : List DocRecord :=
  c.filter fun r => r.meta == v

theorem filterPath_eq_filterAt (c : Collection) (p : String) :
    filterPath c p = filterAt c (MVal.str p) := rfl

theorem docsAt_eq (c : Collection) (v : MVal) :
    docsAt c v = (filterAt c v).map DocRecord.text := rfl

theorem filterAt_append (c1 c2 : Collection) (v : MVal) :
    filterAt (c1 ++ c2) v = filterAt c1 v ++ filterAt c2 v :=
  List.filter_append _ _

theorem filterAt_newRecords_self (s : Nat) (p : String) (docs : List String) :
    filterAt (newRecords s p docs) (MVal.str p) = newRecords s p docs := by
  apply List.filter_eq_self.mpr
  intro r hr
  simp [newRecords_meta p docs s r hr]

theorem filterAt_newRecords_ne (s : Nat) (p : String) (docs : List String)
    (v : MVal) (hv : v ≠ MVal.str p) :
    filterAt (newRecords s p docs) v = [] := by
  apply List.filter_eq_nil_iff.mpr
  intro r hr
  simp only [newRecords_meta p docs s r hr, beq_iff_eq]
  exact fun h => hv h.symm

theorem filterAt_deletePath_self (c : Collection) (p : String) :
    filterAt (deletePath c p) (MVal.str p) = [] := by
  apply List.filter_eq_nil_iff.mpr
  intro r hr
  have h := (List.mem_filter.mp hr).2
  simpa using h

theorem filterAt_deletePath_ne (c : Collection) (p : String) (v : MVal)
    (hv : v ≠ MVal.str p) :
    filterAt (deletePath c p) v = filterAt c v := by
  simp only [filterAt, deletePath, List.filter_filter]
  apply List.filter_congr
  intro r _
  by_cases h : r.meta = v
  · have hvp : (v == MVal.str p) = false := by
      simp [beq_iff_eq]
      exact hv
    simp [h, hvp]
  · have hrv : (r.meta == v) = false := by
      simp [beq_iff_eq]
      exact h
    simp [hrv]

/-! Effect of one successful per-file task on the stored records and stats. -/

theorem chunkedAddPure_filterAt_self (env : Env) (m : Nat) (p : String)
    (st : SyncState) (hm : 1 ≤ m) :
    filterAt (chunkedAddPure env m p st).coll (MVal.str p) =
      newRecords st.nextId p (chunksOf env p) := by
  rw [chunkedAddPure_eq env m p st hm]
  by_cases hc : (filterPath st.coll p).length ≠ 0
  · simp only [if_pos hc]
    rw [filterAt_append, filterAt_deletePath_self, filterAt_newRecords_self,
      List.nil_append]
  · simp only [if_neg hc]
    have hnil : filterAt st.coll (MVal.str p) = [] := by
      rw [← filterPath_eq_filterAt]
      exact List.eq_nil_of_length_eq_zero (by omega)
    rw [filterAt_append, hnil, filterAt_newRecords_self, List.nil_append]

theorem chunkedAddPure_filterAt_ne (env : Env) (m : Nat) (p : String)
    (st : SyncState) (v : MVal) (hm : 1 ≤ m) (hv : v ≠ MVal.str p) :
    filterAt (chunkedAddPure env m p st).coll v = filterAt st.coll v := by
  rw [chunkedAddPure_eq env m p st hm]
  by_cases hc : (filterPath st.coll p).length ≠ 0
  · simp only [if_pos hc]
    rw [filterAt_append, filterAt_deletePath_ne _ _ _ hv,
      filterAt_newRecords_ne _ _ _ _ hv, List.append_nil]
  · simp only [if_neg hc]
    rw [filterAt_append, filterAt_newRecords_ne _ _ _ _ hv, List.append_nil]

theorem chunkedAddPure_stats (env : Env) (m : Nat) (p : String) (st : SyncState) :
    (chunkedAddPure env m p st).stats =
      if (filterPath st.coll p).length ≠ 0 then
        { st.stats with update := st.stats.update + 1 }
      else
        { st.stats with add := st.stats.add + 1 } := by
  by_cases hc : (filterPath st.coll p).length ≠ 0
  · simp only [chunkedAddPure, if_pos hc, insertBatches_eq]
  · simp only [chunkedAddPure, if_neg hc, insertBatches_eq]

theorem chunkedAddPure_removed (env : Env) (m : Nat) (p : String) (st : SyncState) :
    (chunkedAddPure env m p st).stats.removed = st.stats.removed := by
  rw [chunkedAddPure_stats]
  by_cases hc : (filterPath st.coll p).length ≠ 0 <;> simp [hc]

theorem chunkedAddPure_addupd (env : Env) (m : Nat) (p : String) (st : SyncState) :
    (chunkedAddPure env m p st).stats.add + (chunkedAddPure env m p st).stats.update
      = st.stats.add + st.stats.update + 1 := by
  rw [chunkedAddPure_stats]
  by_cases hc : (filterPath st.coll p).length ≠ 0 <;> simp [hc] <;> omega

/-! Effect of the whole task fan-out on the stored records and stats. -/

theorem runTasks_nil (env : Env) (m : Nat) (st : SyncState) :
    runTasks env m [] st = st := rfl

theorem runTasks_cons (env : Env) (m : Nat) (f : String) (fs : List String)
    (st : SyncState) :
    runTasks env m (f :: fs) st = runTasks env m fs (chunkedAddPure env m f st) := rfl

theorem runTasks_filterAt_untouched (env : Env) (m : Nat) (hm : 1 ≤ m) :
    ∀ (files : List String) (st : SyncState) (v : MVal),
      (∀ f ∈ files, v ≠ MVal.str f) →
      filterAt (runTasks env m files st).coll v = filterAt st.coll v := by
  intro files
  induction files with
  | nil => intro st v _; rfl
  | cons f fs ih =>
      intro st v hv
      rw [runTasks_cons,
        ih _ _ fun g hg => hv g (List.mem_cons_of_mem f hg),
        chunkedAddPure_filterAt_ne env m f st v hm (hv f (List.mem_cons_self f fs))]

theorem runTasks_docsAt_mem (env : Env) (m : Nat) (hm : 1 ≤ m) :
    ∀ (files : List String), files.Nodup → ∀ f ∈ files, ∀ st : SyncState,
      docsAt (runTasks env m files st).coll (MVal.str f) = chunksOf env f := by
  intro files
  induction files with
  | nil => intro _ f hf; exact absurd hf (List.not_mem_nil f)
  | cons g gs ih =>
      intro hnd f hf st
      have hnd2 := List.nodup_cons.mp hnd
      rcases List.mem_cons.mp hf with hfg | hfs
      · subst hfg
        rw [runTasks_cons, docsAt_eq]
        have huntouched : ∀ t ∈ gs, MVal.str f ≠ MVal.str t := by
          intro t ht heq
          cases heq
          exact hnd2.1 ht
        rw [runTasks_filterAt_untouched env m hm gs _ _ huntouched,
          chunkedAddPure_filterAt_self env m f st hm, newRecords_map_text]
      · rw [runTasks_cons]
        exact ih hnd2.2 f hfs _

theorem runTasks_removed (env : Env) (m : Nat) :
    ∀ (files : List String) (st : SyncState),
      (runTasks env m files st).stats.removed = st.stats.removed := by
  intro files
  induction files with
  | nil => intro st; rfl
  | cons f fs ih =>
      intro st
      rw [runTasks_cons, ih, chunkedAddPure_removed]

theorem runTasks_addupd (env : Env) (m : Nat) :
    ∀ (files : List String) (st : SyncState),
      (runTasks env m files st).stats.add + (runTasks env m files st).stats.update
        = st.stats.add + st.stats.update + files.length := by
  intro files
  induction files with
  | nil => intro st; simp [runTasks_nil]
  | cons f fs ih =>
      intro st
      rw [runTasks_cons, ih, chunkedAddPure_addupd]
      simp only [List.length_cons]
      omega

theorem runTasks_update_all (env : Env) (m : Nat) (hm : 1 ≤ m) :
    ∀ (files : List String), files.Nodup →
      ∀ st : SyncState, (∀ f ∈ files, filterAt st.coll (MVal.str f) ≠ []) →
      (runTasks env m files st).stats =
        { st.stats with update := st.stats.update + files.length } := by
  intro files
  induction files with
  | nil =>
      intro _ st _
      simp [runTasks_nil]
  | cons f fs ih =>
      intro hnd st hall
      have hnd2 := List.nodup_cons.mp hnd
      have hf : (filterPath st.coll f).length ≠ 0 := by
        rw [filterPath_eq_filterAt]
        intro h0
        exact hall f (List.mem_cons_self f fs) (List.eq_nil_of_length_eq_zero h0)
      have hall2 : ∀ g ∈ fs, filterAt (chunkedAddPure env m f st).coll (MVal.str g) ≠ [] := by
        intro g hg
        have hgf : MVal.str g ≠ MVal.str f := by
          intro heq
          cases heq
          exact hnd2.1 hg
        rw [chunkedAddPure_filterAt_ne env m f st _ hm hgf]
        exact hall g (List.mem_cons_of_mem f hg)
      rw [runTasks_cons, ih hnd2.2 _ hall2, chunkedAddPure_stats, if_pos hf]
      simp only [List.length_cons]
      congr 1
      omega

/-! Lemmas about the orphan set and the cleanup block. -/

theorem orphFn_eq_some (onDisk : String → Bool) (r : DocRecord) (s : String) :
    orphFn onDisk r = some s ↔ r.meta = MVal.str s ∧ onDisk s = false := by
  obtain ⟨i, t, mv⟩ := r
  cases mv with
  | str u =>
      by_cases hd : onDisk u
      · simp only [orphFn, if_pos hd]
        constructor
        · intro h; exact absurd h (by simp)
        · rintro ⟨hus, hds⟩
          cases hus
          rw [hd] at hds
          cases hds
      · simp only [orphFn, if_neg hd]
        constructor
        · intro h
          cases h
          exact ⟨rfl, by simpa using hd⟩
        · rintro ⟨hus, _⟩
          cases hus
          rfl
  | nonString => simp [orphFn]

theorem pathFn_eq_some (r : DocRecord) (s : String) :
    pathFn r = some s ↔ r.meta = MVal.str s := by
  obtain ⟨i, t, mv⟩ := r
  cases mv with
  | str u => simp [pathFn]
  | nonString => simp [pathFn]

theorem orphans_mem (onDisk : String → Bool) (c : Collection) (s : String) :
    s ∈ orphans onDisk c ↔ onDisk s = false ∧ ∃ r ∈ c, r.meta = MVal.str s := by
  simp only [orphans, List.mem_dedup, List.mem_filterMap, orphFn_eq_some]
  constructor
  · rintro ⟨r, hr, hm, hd⟩
    exact ⟨hd, r, hr, hm⟩
  · rintro ⟨hd, r, hr, hm⟩
    exact ⟨r, hr, hm, hd⟩

theorem orphans_nodup (onDisk : String → Bool) (c : Collection) :
    (orphans onDisk c).Nodup :=
  List.nodup_dedup _

theorem storedPaths_mem (c : Collection) (s : String) :
    s ∈ storedPaths c ↔ ∃ r ∈ c, r.meta = MVal.str s := by
  simp only [storedPaths, List.mem_dedup, List.mem_filterMap, pathFn_eq_some]

/-- The number of distinct orphan paths never exceeds the number of distinct
string paths stored in the collection. -/
theorem orphans_length_le (onDisk : String → Bool) (c : Collection) :
    (orphans onDisk c).length ≤ (storedPaths c).length := by
  have hsub : (c.filterMap (orphFn onDisk)).toFinset ⊆ (c.filterMap pathFn).toFinset := by
    intro s hs
    rw [List.mem_toFinset, List.mem_filterMap] at hs ⊢
    rcases hs with ⟨r, hr, ho⟩
    rcases (orphFn_eq_some onDisk r s).mp ho with ⟨hm, _⟩
    exact ⟨r, hr, (pathFn_eq_some r s).mpr hm⟩
  have hcard := Finset.card_le_card hsub
  rw [List.card_toFinset, List.card_toFinset] at hcard
  exact hcard

theorem cleanup_coll (onDisk : String → Bool) (st : SyncState) :
    (cleanup onDisk st).1.coll = st.coll.filter (keepFn onDisk) := by
  by_cases hc : st.coll.isEmpty
  · have hnil : st.coll = [] := List.isEmpty_iff.mp hc
    simp [cleanup, hc, hnil]
  · by_cases ho : (orphans onDisk st.coll).isEmpty
    · have hall : ∀ r ∈ st.coll, keepFn onDisk r = true := by
        intro r hr
        cases hmv : r.meta with
        | nonString => simp [keepFn, hmv]
        | str s =>
            simp only [keepFn, hmv]
            by_contra hds
            have hdf : onDisk s = false := by
              cases hov : onDisk s
              · rfl
              · exact absurd hov hds
            have hsmem : s ∈ orphans onDisk st.coll :=
              (orphans_mem onDisk st.coll s).mpr ⟨hdf, r, hr, hmv⟩
            rw [List.isEmpty_iff.mp ho] at hsmem
            exact absurd hsmem (List.not_mem_nil s)
      simp [cleanup, hc, ho, List.filter_eq_self.mpr hall]
    · simp only [cleanup, if_neg hc, if_neg ho]
      apply List.filter_congr
      intro r hr
      cases hmv : r.meta with
      | nonString => simp [keepFn, hmv]
      | str s =>
          by_cases hd : onDisk s
          · have hnm : s ∉ orphans onDisk st.coll := by
              intro hmem
              rcases (orphans_mem onDisk st.coll s).mp hmem with ⟨hdf, _⟩
              rw [hd] at hdf
              cases hdf
            simp [keepFn, hmv, hnm, hd]
          · have hdf : onDisk s = false := by
              cases hov : onDisk s
              · rfl
              · exact absurd hov hd
            have hmem : s ∈ orphans onDisk st.coll :=
              (orphans_mem onDisk st.coll s).mpr ⟨hdf, r, hr, hmv⟩
            simp [keepFn, hmv, hmem, hdf]

theorem cleanup_stats_add (onDisk : String → Bool) (st : SyncState) :
    (cleanup onDisk st).1.stats.add = st.stats.add := by
  by_cases hc : st.coll.isEmpty
  · simp [cleanup, hc]
  · by_cases ho : (orphans onDisk st.coll).isEmpty <;> simp [cleanup, hc, ho]

theorem cleanup_stats_update (onDisk : String → Bool) (st : SyncState) :
    (cleanup onDisk st).1.stats.update = st.stats.update := by
  by_cases hc : st.coll.isEmpty
  · simp [cleanup, hc]
  · by_cases ho : (orphans onDisk st.coll).isEmpty <;> simp [cleanup, hc, ho]

theorem cleanup_removed (onDisk : String → Bool) (st : SyncState)
    (h0 : st.stats.removed = 0) :
    (cleanup onDisk st).1.stats.removed = (orphans onDisk st.coll).length := by
  by_cases hc : st.coll.isEmpty
  · have hnil : st.coll = [] := List.isEmpty_iff.mp hc
    simp [cleanup, hc, hnil, h0, orphans]
  · by_cases ho : (orphans onDisk st.coll).isEmpty <;> simp [cleanup, hc, ho]

theorem cleanup_deletes (onDisk : String → Bool) (st : SyncState) :
    (cleanup onDisk st).2 =
      if (orphans onDisk st.coll).isEmpty then [] else [orphans onDisk st.coll] := by
  by_cases hc : st.coll.isEmpty
  · have hnil : st.coll = [] := List.isEmpty_iff.mp hc
    have hno : orphans onDisk st.coll = [] := by simp [hnil, orphans]
    simp [cleanup, hc, hno]
  · by_cases ho : (orphans onDisk st.coll).isEmpty <;> simp [cleanup, hc, ho]

theorem cleanup_docsAt_str (onDisk : String → Bool) (st : SyncState) (q : String) :
    docsAt (cleanup onDisk st).1.coll (MVal.str q) =
      if onDisk q then docsAt st.coll (MVal.str q) else [] := by
  rw [docsAt_eq, docsAt_eq, cleanup_coll]
  simp only [filterAt, List.filter_filter]
  by_cases hd : onDisk q
  · rw [if_pos hd]
    have hcong : ∀ r ∈ st.coll,
        ((r.meta == MVal.str q) && keepFn onDisk r) = (r.meta == MVal.str q) := by
      intro r _
      by_cases hm : r.meta = MVal.str q
      · simp [hm, keepFn, hd]
      · have : (r.meta == MVal.str q) = false := by
          simp [beq_iff_eq]
          exact hm
        simp [this]
    rw [List.filter_congr hcong]
  · rw [if_neg hd]
    have hfalse : ∀ r ∈ st.coll,
        ((r.meta == MVal.str q) && keepFn onDisk r) = false := by
      intro r _
      by_cases hm : r.meta = MVal.str q
      · have hdf : onDisk q = false := by
          cases hov : onDisk q
          · rfl
          · exact absurd hov hd
        simp [hm, keepFn, hdf]
      · have : (r.meta == MVal.str q) = false := by
          simp [beq_iff_eq]
          exact hm
        simp [this]
    rw [List.filter_congr hfalse]
    simp

theorem cleanup_docsAt_ns (onDisk : String → Bool) (st : SyncState) :
    docsAt (cleanup onDisk st).1.coll MVal.nonString = docsAt st.coll MVal.nonString := by
  rw [docsAt_eq, docsAt_eq, cleanup_coll]
  simp only [filterAt, List.filter_filter]
  have hcong : ∀ r ∈ st.coll,
      ((r.meta == MVal.nonString) && keepFn onDisk r) = (r.meta == MVal.nonString) := by
    intro r _
    by_cases hm : r.meta = MVal.nonString
    · simp [hm, keepFn]
    · have : (r.meta == MVal.nonString) = false := by
        simp [beq_iff_eq]
        exact hm
      simp [this]
  rw [List.filter_congr hcong]

/-! Claim theorems. -/

/-- C5: for every chunk list and every max batch size of at least one, the
upload step partitions the list into consecutive slices whose concatenation
in order is exactly the original list (so every chunk appears in exactly one
insert call), and no single insert call receives more than m documents. -/
theorem claim_C5_batch_respect (m : Nat) (chunks : List String) (hm : 1 ≤ m) :
    (batches m chunks).flatten = chunks ∧ ∀ b ∈ batches m chunks, b.length ≤ m :=
  ⟨batches_join m hm chunks, batches_mem_length m chunks⟩

theorem claim_C5_witness :
    1 ≤ 2 ∧
      ((batches 2 ["a", "b", "c"]).flatten = ["a", "b", "c"] ∧
        ∀ b ∈ batches 2 ["a", "b", "c"], b.length ≤ 2) :=
  ⟨by decide, claim_C5_batch_respect 2 ["a", "b", "c"] (by decide)⟩

/-- C6: when an ignore-file exists at the project root, a candidate is kept
if and only if the force flag is set or the candidate matches no ignore
rule; when no ignore-file exists, the candidate list is passed through
unchanged. -/
theorem claim_C6_gitignore_filter (force : Bool) (matchFile : String → Bool)
    (files : List String) :
    (∀ f, f ∈ filterByGitignore true force matchFile files ↔
        f ∈ files ∧ (force = true ∨ matchFile f = false)) ∧
    filterByGitignore false force matchFile files = files := by
  constructor
  · intro f
    simp [filterByGitignore, List.mem_filter]
  · simp [filterByGitignore]

theorem insertBatch_stats (p : String) (b : List String) (st : SyncState) :
    (insertBatch p b st).stats = st.stats := rfl

theorem insertBatchesE_error_stats (p : String) (ok : Nat → Bool) :
    ∀ (bs : List (List String)) (k : Nat) (st stErr : SyncState),
      insertBatchesE p ok k bs st = Except.error stErr → stErr.stats = st.stats := by
  intro bs
  induction bs with
  | nil =>
      intro k st stErr h
      simp [insertBatchesE] at h
  | cons b bs ih =>
      intro k st stErr h
      by_cases hk : ok k
      · rw [insertBatchesE, if_pos hk] at h
        rw [ih (k + 1) _ _ h, insertBatch_stats]
      · rw [insertBatchesE, if_neg hk] at h
        simp only [Except.error.injEq] at h
        rw [← h]

/-- Counter outcome allowed for a per-file task that failed at some remote
call: either no counter changed (failure at the query or the delete), or the
single classification increment whose triggering remote calls all succeeded
is present and nothing else changed (failure at an insert). -/
def CounterSafe (p : String) (st stErr : SyncState) : Prop :=
  stErr.stats = st.stats ∨
    (((filterPath st.coll p).length ≠ 0 ∧
        stErr.stats = { st.stats with update := st.stats.update + 1 }) ∨
      ((filterPath st.coll p).length = 0 ∧
        stErr.stats = { st.stats with add := st.stats.add + 1 }))

/-- C1: if any remote call of a per-file task fails (existing-ids query,
delete, or an insert batch), the shared counters at the moment of failure
are exactly the counters from before that call: a counter increment is only
ever present once the remote call it corresponds to has succeeded. -/
theorem claim_C1_counters_safe (env : Env) (m : Nat) (ok : Nat → Bool)
    (p : String) (st stErr : SyncState)
    (h : chunkedAddE env m ok p st = Except.error stErr) :
    CounterSafe p st stErr ∧
      (stErr.stats ≠ st.stats → ok 0 = true ∧
        ((filterPath st.coll p).length ≠ 0 → ok 1 = true)) := by
  by_cases h0 : ok 0
  · by_cases hc : (filterPath st.coll p).length ≠ 0
    · by_cases h1 : ok 1
      · simp only [chunkedAddE, if_pos h0, if_pos hc, if_pos h1] at h
        have hst := insertBatchesE_error_stats p ok _ _ _ _ h
        refine ⟨Or.inr (Or.inl ⟨hc, hst⟩), fun _ => ⟨h0, fun _ => h1⟩⟩
      · simp only [chunkedAddE, if_pos h0, if_pos hc, if_neg h1,
          Except.error.injEq] at h
        subst h
        exact ⟨Or.inl rfl, fun hne => absurd rfl hne⟩
    · simp only [chunkedAddE, if_pos h0, if_neg hc] at h
      have hst := insertBatchesE_error_stats p ok _ _ _ _ h
      have hc0 : (filterPath st.coll p).length = 0 := by omega
      refine ⟨Or.inr (Or.inr ⟨hc0, hst⟩), fun _ => ⟨h0, fun hlen => absurd hlen hc⟩⟩
  · simp only [chunkedAddE, if_neg h0, Except.error.injEq] at h
    subst h
    exact ⟨Or.inl rfl, fun hne => absurd rfl hne⟩

/-- Concrete collaborator environment used by the witnesses: a chunker
producing one chunk, a one-character file content, a disk holding only the
file "a", and a fixed relative-path token. -/
def envA : Env where
  chunkFn := fun _ => ["h"]
  content := fun _ => "x"
  onDisk := fun s => s == "a"
  relTok := fun _ => "ra"

theorem claim_C1_witness :
    chunkedAddE envA 1 (fun _ => false) "a" ⟨[], ⟨0, 0, 0⟩, 0⟩ =
        Except.error ⟨[], ⟨0, 0, 0⟩, 0⟩ ∧
      (CounterSafe "a" ⟨[], ⟨0, 0, 0⟩, 0⟩ ⟨[], ⟨0, 0, 0⟩, 0⟩ ∧
        ((⟨[], ⟨0, 0, 0⟩, 0⟩ : SyncState).stats ≠ (⟨[], ⟨0, 0, 0⟩, 0⟩ : SyncState).stats →
          (fun (_ : Nat) => false) 0 = true ∧
            ((filterPath (⟨[], ⟨0, 0, 0⟩, 0⟩ : SyncState).coll "a").length ≠ 0 →
              (fun (_ : Nat) => false) 1 = true))) :=
  ⟨rfl, claim_C1_counters_safe envA 1 (fun _ => false) "a" _ _ rfl⟩

/-- Outcome required of a successful per-file task: the brand-new case
increments add by one, the previously-synced case increments update by one,
and in both cases the records stored at the path afterwards are exactly the
freshly minted ones, so no stale chunk remains. -/
def ClassifySpec (env : Env) (m : Nat) (p : String) (st : SyncState) : Prop :=
  (filterPath st.coll p = [] →
      (chunkedAddPure env m p st).stats.add = st.stats.add + 1 ∧
      (chunkedAddPure env m p st).stats.update = st.stats.update ∧
      (chunkedAddPure env m p st).stats.removed = st.stats.removed ∧
      filterPath (chunkedAddPure env m p st).coll p =
        newRecords st.nextId p (chunksOf env p)) ∧
  (filterPath st.coll p ≠ [] →
      (chunkedAddPure env m p st).stats.update = st.stats.update + 1 ∧
      (chunkedAddPure env m p st).stats.add = st.stats.add ∧
      (chunkedAddPure env m p st).stats.removed = st.stats.removed ∧
      filterPath (chunkedAddPure env m p st).coll p =
        newRecords st.nextId p (chunksOf env p) ∧
      ∀ r ∈ st.coll, r.meta = MVal.str p → r ∉ (chunkedAddPure env m p st).coll)

/-- C2: a file with no stored records yields add incremented by exactly one;
a file with stored records yields update incremented by exactly one, every
pre-existing record for the path is gone afterwards, and the records stored
at the path are exactly the freshly inserted chunks. -/
theorem claim_C2_classification (env : Env) (m : Nat) (p : String) (st : SyncState)
    (hm : 1 ≤ m) (hfresh : ∀ r ∈ st.coll, r.id < st.nextId) :
    ClassifySpec env m p st := by
  have hself := chunkedAddPure_filterAt_self env m p st hm
  have hstats := chunkedAddPure_stats env m p st
  constructor
  · intro hnil
    have hc : ¬(filterPath st.coll p).length ≠ 0 := by
      rw [hnil]
      simp
    rw [if_neg hc] at hstats
    refine ⟨by rw [hstats], by rw [hstats], by rw [hstats],
      by rw [filterPath_eq_filterAt]; exact hself⟩
  · intro hne
    have hc : (filterPath st.coll p).length ≠ 0 := by
      intro h0
      exact hne (List.eq_nil_of_length_eq_zero h0)
    rw [if_pos hc] at hstats
    refine ⟨by rw [hstats], by rw [hstats], by rw [hstats],
      by rw [filterPath_eq_filterAt]; exact hself, ?_⟩
    intro r hr hmeta hmem
    rw [chunkedAddPure_eq env m p st hm, if_pos hc] at hmem
    rcases List.mem_append.mp hmem with hdel | hnew
    · have hkeep := (List.mem_filter.mp hdel).2
      rw [hmeta] at hkeep
      simp at hkeep
    · have hid := newRecords_id_ge p (chunksOf env p) st.nextId r hnew
      exact absurd (hfresh r hr) (by omega)

theorem claim_C2_witness :
    (1 ≤ 1 ∧ ∀ r ∈ ([⟨0, "old", MVal.str "a"⟩] : Collection), r.id < 1) ∧
      ClassifySpec envA 1 "a" ⟨[⟨0, "old", MVal.str "a"⟩], ⟨0, 0, 0⟩, 1⟩ :=
  ⟨⟨by decide, by decide⟩,
    claim_C2_classification envA 1 "a" ⟨[⟨0, "old", MVal.str "a"⟩], ⟨0, 0, 0⟩, 1⟩
      (by decide) (by decide)⟩

/-- Outcome required of the cleanup step: removed is set to the number of
distinct orphan paths, the orphan set is duplicate-free and holds exactly
the stored string paths with no backing file, exactly one bulk delete
covering all records of those paths is issued when the set is non-empty and
none when it is empty, and the surviving records are exactly those whose
path is on disk or not a string. -/
def CleanupSpec (onDisk : String → Bool) (st : SyncState) : Prop :=
  (cleanup onDisk st).1.stats.removed = (orphans onDisk st.coll).length ∧
  (orphans onDisk st.coll).Nodup ∧
  (∀ s, s ∈ orphans onDisk st.coll ↔
      onDisk s = false ∧ ∃ r ∈ st.coll, r.meta = MVal.str s) ∧
  (orphans onDisk st.coll = [] → (cleanup onDisk st).2 = []) ∧
  (orphans onDisk st.coll ≠ [] → (cleanup onDisk st).2 = [orphans onDisk st.coll]) ∧
  (cleanup onDisk st).1.coll = st.coll.filter (keepFn onDisk)

/-- C4: after the per-file tasks, cleanup sets removed to the cardinality of
the set of distinct stored paths with no file on disk (not to the record
count), issues exactly one bulk delete covering all records of those paths
when the set is non-empty, and issues no delete when it is empty. -/
theorem claim_C4_orphan_cleanup (onDisk : String → Bool) (st : SyncState)
    (h0 : st.stats.removed = 0) :
    CleanupSpec onDisk st := by
  refine ⟨cleanup_removed onDisk st h0, orphans_nodup onDisk st.coll,
    orphans_mem onDisk st.coll, ?_, ?_, cleanup_coll onDisk st⟩
  · intro hnil
    rw [cleanup_deletes, if_pos (List.isEmpty_iff.mpr hnil)]
  · intro hne
    rw [cleanup_deletes, if_neg (fun h => hne (List.isEmpty_iff.mp h))]

theorem claim_C4_witness :
    (⟨[⟨0, "t1", MVal.str "gone"⟩, ⟨1, "t2", MVal.str "gone"⟩], ⟨0, 0, 0⟩, 2⟩ :
        SyncState).stats.removed = 0 ∧
      CleanupSpec (fun _ => false)
        ⟨[⟨0, "t1", MVal.str "gone"⟩, ⟨1, "t2", MVal.str "gone"⟩], ⟨0, 0, 0⟩, 2⟩ :=
  ⟨rfl, claim_C4_orphan_cleanup (fun _ => false)
    ⟨[⟨0, "t1", MVal.str "gone"⟩, ⟨1, "t2", MVal.str "gone"⟩], ⟨0, 0, 0⟩, 2⟩ rfl⟩

/-- C10: a stored record whose path metadata is not a string is never
counted as an orphan and never deleted by cleanup, regardless of the disk
state; every orphan path is a string-valued stored path with no backing
file, and the only delete issued targets exactly the orphan path set. -/
theorem claim_C10_non_string_safe (onDisk : String → Bool) (st : SyncState) :
    (∀ r ∈ st.coll, r.meta = MVal.nonString → r ∈ (cleanup onDisk st).1.coll) ∧
    (∀ s ∈ orphans onDisk st.coll,
        onDisk s = false ∧ ∃ r ∈ st.coll, r.meta = MVal.str s) ∧
    ∀ call ∈ (cleanup onDisk st).2, call = orphans onDisk st.coll := by
  refine ⟨?_, ?_, ?_⟩
  · intro r hr hmeta
    rw [cleanup_coll]
    refine List.mem_filter.mpr ⟨hr, ?_⟩
    simp [keepFn, hmeta]
  · intro s hs
    exact (orphans_mem onDisk st.coll s).mp hs
  · intro call hcall
    rw [cleanup_deletes] at hcall
    by_cases ho : (orphans onDisk st.coll).isEmpty
    · rw [if_pos ho] at hcall
      exact absurd hcall (List.not_mem_nil call)
    · rw [if_neg ho] at hcall
      simpa using hcall

theorem claim_C10_witness :
    (∀ r ∈ ([⟨0, "t", MVal.nonString⟩, ⟨1, "u", MVal.str "gone"⟩] : Collection),
        r.meta = MVal.nonString →
          r ∈ (cleanup (fun _ => false)
            ⟨[⟨0, "t", MVal.nonString⟩, ⟨1, "u", MVal.str "gone"⟩], ⟨0, 0, 0⟩, 2⟩).1.coll) ∧
    (∀ s ∈ orphans (fun _ => false)
        ([⟨0, "t", MVal.nonString⟩, ⟨1, "u", MVal.str "gone"⟩] : Collection),
        (fun (_ : String) => false) s = false ∧
          ∃ r ∈ ([⟨0, "t", MVal.nonString⟩, ⟨1, "u", MVal.str "gone"⟩] : Collection),
            r.meta = MVal.str s) ∧
    ∀ call ∈ (cleanup (fun _ => false)
        ⟨[⟨0, "t", MVal.nonString⟩, ⟨1, "u", MVal.str "gone"⟩], ⟨0, 0, 0⟩, 2⟩).2,
      call = orphans (fun _ => false)
        ([⟨0, "t", MVal.nonString⟩, ⟨1, "u", MVal.str "gone"⟩] : Collection) :=
  claim_C10_non_string_safe (fun _ => false)
    ⟨[⟨0, "t", MVal.nonString⟩, ⟨1, "u", MVal.str "gone"⟩], ⟨0, 0, 0⟩, 2⟩

/-- C8: with counters starting at zero, after any number k of completed
per-file tasks the sum add + update is at most k (hence at most the number
of discovered files), and the removed counter set by cleanup is at most the
number of distinct string paths stored in the collection before cleanup. -/
theorem claim_C8_stats_invariant (env : Env) (m : Nat) (files : List String)
    (c : Collection) (n : Nat) (k : Nat) :
    (runTasks env m (files.take k) ⟨c, ⟨0, 0, 0⟩, n⟩).stats.add +
        (runTasks env m (files.take k) ⟨c, ⟨0, 0, 0⟩, n⟩).stats.update ≤ k ∧
    (runTasks env m (files.take k) ⟨c, ⟨0, 0, 0⟩, n⟩).stats.add +
        (runTasks env m (files.take k) ⟨c, ⟨0, 0, 0⟩, n⟩).stats.update ≤ files.length ∧
    (cleanup env.onDisk (runTasks env m files ⟨c, ⟨0, 0, 0⟩, n⟩)).1.stats.removed ≤
      (storedPaths (runTasks env m files ⟨c, ⟨0, 0, 0⟩, n⟩).coll).length := by
  have hsum : (runTasks env m (files.take k) ⟨c, ⟨0, 0, 0⟩, n⟩).stats.add +
      (runTasks env m (files.take k) ⟨c, ⟨0, 0, 0⟩, n⟩).stats.update =
        (files.take k).length := by
    simpa using runTasks_addupd env m (files.take k) ⟨c, ⟨0, 0, 0⟩, n⟩
  have htake : (files.take k).length ≤ k := List.length_take_le k files
  have htake2 : (files.take k).length ≤ files.length := by
    rw [List.length_take]
    exact Nat.min_le_right _ _
  refine ⟨by omega, by omega, ?_⟩
  rw [cleanup_removed env.onDisk _ (runTasks_removed env m files ⟨c, ⟨0, 0, 0⟩, n⟩)]
  exact orphans_length_le env.onDisk _

theorem verify_condA_iff (cef : Option String) (cfg : EFConfig) :
    ((match cef with | none => false | some s => !(s == "")) &&
        !(cef == some cfg.embedding_function)) = true ↔
      ∃ s, cef = some s ∧ s ≠ "" ∧ s ≠ cfg.embedding_function := by
  cases cef with
  | none => simp
  | some s => simp [beq_iff_eq]

theorem verify_condB_iff (cep : Option (List (String × String))) (cfg : EFConfig) :
    ((match cep with | none => false | some l => !l.isEmpty) &&
        !(cep == some cfg.embedding_params)) = true ↔
      ∃ l, cep = some l ∧ l ≠ [] ∧ l ≠ cfg.embedding_params := by
  cases cep with
  | none => simp
  | some l => simp [beq_iff_eq, List.isEmpty_iff]

theorem verify_ef_ok_false_iff (cef : Option String)
    (cep : Option (List (String × String))) (cfg : EFConfig) :
    (verify_ef cef cep cfg).ok = false ↔
      ∃ s, cef = some s ∧ s ≠ "" ∧ s ≠ cfg.embedding_function := by
  rw [← verify_condA_iff cef cfg]
  by_cases hA : ((match cef with | none => false | some s => !(s == "")) &&
      !(cef == some cfg.embedding_function)) = true
  · simp [verify_ef, hA]
  · by_cases hB : ((match cep with | none => false | some l => !l.isEmpty) &&
        !(cep == some cfg.embedding_params)) = true
    · simp [verify_ef, hA, hB]
    · simp [verify_ef, hA, hB]

theorem verify_ef_warned_iff (cef : Option String)
    (cep : Option (List (String × String))) (cfg : EFConfig) :
    (verify_ef cef cep cfg).warned = true ↔
      ((verify_ef cef cep cfg).ok = true ∧
        ∃ l, cep = some l ∧ l ≠ [] ∧ l ≠ cfg.embedding_params) := by
  rw [← verify_condB_iff cep cfg]
  by_cases hA : ((match cef with | none => false | some s => !(s == "")) &&
      !(cef == some cfg.embedding_function)) = true
  · simp [verify_ef, hA]
  · by_cases hB : ((match cep with | none => false | some l => !l.isEmpty) &&
        !(cep == some cfg.embedding_params)) = true
    · simp [verify_ef, hA, hB]
    · simp [verify_ef, hA, hB]

theorem vectoriseRun_exit (env : Env) (cef : Option String)
    (cep : Option (List (String × String))) (cfg : EFConfig)
    (ignoreExists force : Bool) (matchFile : String → Bool) (pipe : Bool)
    (m : Nat) (rawFiles : List String) (cancelAt : Option Nat)
    (c : Collection) (n : Nat) :
    (vectoriseRun env cef cep cfg ignoreExists force matchFile pipe m rawFiles
        cancelAt c n).exit =
      if (verify_ef cef cep cfg).ok then
        (match cancelAt with | some _ => 1 | none => 0)
      else 1 := by
  by_cases hok : (verify_ef cef cep cfg).ok
  · cases cancelAt <;> simp [vectoriseRun, hok]
  · simp [vectoriseRun, hok]

/-- C9 (amended): verification rejects exactly when the collection metadata
records a non-empty embedding_function different from the configured one; a
difference only in embedding_params never causes rejection; the warning is
emitted exactly when verification passes and the collection records a
non-empty embedding_params different from the configured one; and the pass
exits non-zero precisely on rejection or cancellation. -/
theorem claim_C9_verify_ef_spec (cef : Option String)
    (cep : Option (List (String × String))) (cfg : EFConfig) :
    ((verify_ef cef cep cfg).ok = false ↔
        ∃ s, cef = some s ∧ s ≠ "" ∧ s ≠ cfg.embedding_function) ∧
    ((verify_ef cef cep cfg).warned = true ↔
        ((verify_ef cef cep cfg).ok = true ∧
          ∃ l, cep = some l ∧ l ≠ [] ∧ l ≠ cfg.embedding_params)) ∧
    ∀ (env : Env) (ignoreExists force : Bool) (matchFile : String → Bool)
      (pipe : Bool) (m : Nat) (rawFiles : List String) (cancelAt : Option Nat)
      (c : Collection) (n : Nat),
      (vectoriseRun env cef cep cfg ignoreExists force matchFile pipe m rawFiles
          cancelAt c n).exit =
        if (verify_ef cef cep cfg).ok then
          (match cancelAt with | some _ => 1 | none => 0)
        else 1 :=
  ⟨verify_ef_ok_false_iff cef cep cfg, verify_ef_warned_iff cef cep cfg,
    fun env ignoreExists force matchFile pipe m rawFiles cancelAt c n =>
      vectoriseRun_exit env cef cep cfg ignoreExists force matchFile pipe m
        rawFiles cancelAt c n⟩

/-- Configured embedding function and parameters used by concrete runs. -/
def cfg0 : EFConfig := ⟨"sbert", [("a", "b")]⟩

/-- C9 counterexample: the collection records an empty embedding_params dict
(falsy in python) which differs from the configured non-empty params, yet
verify_ef returns True and emits no warning, refuting the claim that a
difference only in embedding_params produces a warning. -/
theorem claim_C9_counterexample :
    (verify_ef none (some []) cfg0).ok = true ∧
    (verify_ef none (some []) cfg0).warned = false ∧
    ([] : List (String × String)) ≠ cfg0.embedding_params := by decide

/-- Outcome required of a cancelled pass: exit status 1, exactly the abort
message on the output (in particular no stats record in either rendering),
an untouched removed counter, and a shared state equal to the plain
state of the completed tasks alone, to which no orphan reconciliation was applied. -/
def AbortOutcome (r : RunResult) (expected : SyncState) : Prop :=
  r.exit = 1 ∧ r.out = [OutEvent.abortMsg] ∧
  (∀ a u d : Nat, OutEvent.statsJson a u d ∉ r.out ∧ OutEvent.statsTable a u d ∉ r.out) ∧
  r.state.stats.removed = 0 ∧
  r.state = expected

/-- C7: a cancellation signal arriving while per-file tasks are in flight
makes the pass emit the abort message, return a non-zero status, skip orphan
reconciliation, and emit no stats record. -/
theorem claim_C7_cancellation (env : Env) (cef : Option String)
    (cep : Option (List (String × String))) (cfg : EFConfig)
    (ignoreExists force : Bool) (matchFile : String → Bool) (pipe : Bool)
    (m : Nat) (rawFiles : List String) (k : Nat) (c : Collection) (n : Nat)
    (hef : (verify_ef cef cep cfg).ok = true) :
    AbortOutcome
      (vectoriseRun env cef cep cfg ignoreExists force matchFile pipe m rawFiles
        (some k) c n)
      (runTasks env m ((filterByGitignore ignoreExists force matchFile rawFiles).take k)
        ⟨c, ⟨0, 0, 0⟩, n⟩) := by
  have hrun : vectoriseRun env cef cep cfg ignoreExists force matchFile pipe m
      rawFiles (some k) c n =
      { exit := 1, out := [OutEvent.abortMsg]
        state := runTasks env m
          ((filterByGitignore ignoreExists force matchFile rawFiles).take k)
          ⟨c, ⟨0, 0, 0⟩, n⟩ } := by
    simp [vectoriseRun, hef]
  rw [hrun]
  refine ⟨rfl, rfl, ?_, ?_, rfl⟩
  · intro a u d
    constructor <;> simp
  · exact runTasks_removed env m _ _

theorem claim_C7_witness :
    (verify_ef none none cfg0).ok = true ∧
      AbortOutcome
        (vectoriseRun envA none none cfg0 false false (fun _ => false) false 1
          ["a", "b"] (some 1) [] 0)
        (runTasks envA 1
          ((filterByGitignore false false (fun _ => false) ["a", "b"]).take 1)
          ⟨[], ⟨0, 0, 0⟩, 0⟩) :=
  ⟨rfl, claim_C7_cancellation envA none none cfg0 false false (fun _ => false)
    false 1 ["a", "b"] 1 [] 0 rfl⟩

/-- Observable equivalence of two collections: at every path metadata value
the stored document sequence is the same; record ids may differ. -/
def obsEqv (c1 c2 : Collection) : Prop :=
  ∀ v, docsAt c1 v = docsAt c2 v

/-- Outcome of running the sync pass a second time over an unchanged file
set: add = 0, update = number of files, removed = 0, and a final collection
observably equal (up to freshly minted record ids) to the one after the
first pass. -/
def SecondPassSpec (env : Env) (m : Nat) (files : List String)
    (c : Collection) (n : Nat) : Prop :=
  (syncPass env m files (syncPass env m files c n).coll
      (syncPass env m files c n).nextId).stats.add = 0 ∧
  (syncPass env m files (syncPass env m files c n).coll
      (syncPass env m files c n).nextId).stats.update = files.length ∧
  (syncPass env m files (syncPass env m files c n).coll
      (syncPass env m files c n).nextId).stats.removed = 0 ∧
  obsEqv
    (syncPass env m files (syncPass env m files c n).coll
      (syncPass env m files c n).nextId).coll
    (syncPass env m files c n).coll

theorem pass_results (env : Env) (m : Nat) (files : List String) (c : Collection)
    (n : Nat) (hm : 1 ≤ m) (hnd : files.Nodup)
    (hdisk : ∀ f ∈ files, env.onDisk f = true) :
    (∀ f ∈ files,
        docsAt (syncPass env m files c n).coll (MVal.str f) = chunksOf env f) ∧
    (∀ q, env.onDisk q = false →
        docsAt (syncPass env m files c n).coll (MVal.str q) = []) := by
  unfold syncPass
  constructor
  · intro f hf
    rw [cleanup_docsAt_str, if_pos (hdisk f hf)]
    exact runTasks_docsAt_mem env m hm files hnd f hf _
  · intro q hq
    rw [cleanup_docsAt_str, if_neg (by simp [hq])]

/-- C3 (amended): running the sync pass twice over an unchanged file set
whose files all exist on disk gives a second pass reporting add = 0,
update = N (the number of synced files) and removed = 0, and a final remote
state identical to the state after the first pass up to the freshly minted
record ids. -/
theorem claim_C3_idempotent_upto_ids (env : Env) (m : Nat) (files : List String)
    (c : Collection) (n : Nat) (hm : 1 ≤ m) (hnd : files.Nodup)
    (hdisk : ∀ f ∈ files, env.onDisk f = true) :
    SecondPassSpec env m files c n := by
  obtain ⟨h1a, h1b⟩ := pass_results env m files c n hm hnd hdisk
  unfold SecondPassSpec
  set s1 := syncPass env m files c n with hs1
  set sB := runTasks env m files ⟨s1.coll, ⟨0, 0, 0⟩, s1.nextId⟩ with hsB
  have hsync2 : syncPass env m files s1.coll s1.nextId = (cleanup env.onDisk sB).1 := by
    rw [hsB]
    rfl
  rw [hsync2]
  have hchunks_ne : ∀ f, chunksOf env f ≠ [] := by
    intro f
    simp [chunksOf]
  have hfilter1 : ∀ f ∈ files, filterAt s1.coll (MVal.str f) ≠ [] := by
    intro f hf hnil
    have hd : docsAt s1.coll (MVal.str f) = [] := by
      rw [docsAt_eq, hnil]
      rfl
    rw [h1a f hf] at hd
    exact hchunks_ne f hd
  have hall : ∀ f ∈ files,
      filterAt (⟨s1.coll, ⟨0, 0, 0⟩, s1.nextId⟩ : SyncState).coll (MVal.str f) ≠ [] :=
    hfilter1
  have hstatsB : sB.stats = ⟨0, files.length, 0⟩ := by
    rw [hsB, runTasks_update_all env m hm files hnd _ hall]
    simp
  have h0B : sB.stats.removed = 0 := by rw [hstatsB]
  have horph : orphans env.onDisk sB.coll = [] := by
    rw [List.eq_nil_iff_forall_not_mem]
    intro s hs
    rcases (orphans_mem env.onDisk sB.coll s).mp hs with ⟨hdf, r, hr, hmeta⟩
    have hrmem : r ∈ filterAt sB.coll (MVal.str s) :=
      List.mem_filter.mpr ⟨hr, by simp [hmeta]⟩
    by_cases hsf : s ∈ files
    · rw [hdisk s hsf] at hdf
      cases hdf
    · have hcond : ∀ f ∈ files, MVal.str s ≠ MVal.str f := by
        intro f hf heq
        cases heq
        exact hsf hf
      have hpres : filterAt sB.coll (MVal.str s) = filterAt s1.coll (MVal.str s) := by
        rw [hsB]
        exact runTasks_filterAt_untouched env m hm files _ _ hcond
      have hd1 : docsAt s1.coll (MVal.str s) = [] := h1b s hdf
      have hfe : filterAt s1.coll (MVal.str s) = [] := by
        rw [docsAt_eq] at hd1
        exact List.map_eq_nil_iff.mp hd1
      rw [hpres, hfe] at hrmem
      exact absurd hrmem (List.not_mem_nil r)
  refine ⟨?_, ?_, ?_, ?_⟩
  · rw [cleanup_stats_add, hstatsB]
  · rw [cleanup_stats_update, hstatsB]
  · rw [cleanup_removed env.onDisk sB h0B, horph]
    rfl
  · unfold obsEqv
    intro v
    cases v with
    | nonString =>
        rw [cleanup_docsAt_ns, docsAt_eq, docsAt_eq, hsB,
          runTasks_filterAt_untouched env m hm files _ MVal.nonString
            (by intro f _ heq; cases heq)]
    | str q =>
        rw [cleanup_docsAt_str]
        by_cases hqf : q ∈ files
        · rw [if_pos (hdisk q hqf), hsB,
            runTasks_docsAt_mem env m hm files hnd q hqf, h1a q hqf]
        · by_cases hdq : env.onDisk q
          · rw [if_pos hdq, docsAt_eq, docsAt_eq, hsB,
              runTasks_filterAt_untouched env m hm files _ _
                (by intro f hf heq; cases heq; exact hqf hf)]
          · rw [if_neg hdq, hs1]
            unfold syncPass
            rw [cleanup_docsAt_str, if_neg hdq]

/-- State after a first sync pass of the single file "a" into an empty
collection. -/
def st1ex : SyncState := syncPass envA 1 ["a"] [] 0

/-- State after re-running the same sync pass over the unchanged file. -/
def st2ex : SyncState := syncPass envA 1 ["a"] st1ex.coll st1ex.nextId

/-- C3 counterexample: re-running the pass over the unchanged file set does
not reproduce the identical remote state, because the old records are
deleted and re-inserted under freshly minted ids; only the id-free content
is reproduced. -/
theorem claim_C3_counterexample : st2ex.coll ≠ st1ex.coll := by decide

theorem claim_C3_witness :
    (1 ≤ 1 ∧ List.Nodup ["a"] ∧ ∀ f ∈ ["a"], envA.onDisk f = true) ∧
      SecondPassSpec envA 1 ["a"] [] 0 :=
  ⟨⟨le_rfl, by decide, by decide⟩,
    claim_C3_idempotent_upto_ids envA 1 ["a"] [] 0 le_rfl (by decide) (by decide)⟩

end VectorCode
